import Mathlib

/-!
Verification development for the hft-engine market-data pipeline.

The Rust source is embedded shallowly:
* prices and sizes (Rust f64) are modelled as exact rationals where the code
  only compares against zero and moves values around unchanged; the one claim
  that depends on IEEE-754 rounding (the price round-trip) gets an exact
  binary64 value model built from rationals;
* BTreeMap of i64 keys is modelled as an association list strictly sorted by key;
* the async gateway methods are modelled as pure state transformers that also
  report their observable effects (which venues were stopped, whether the
  outbound channel was closed).
-/

/-- Rust cast of f64 to i64 (truncation toward zero), on exact values:
the quotient of numerator by denominator rounded toward zero. -/
def ratTrunc (q : ℚ) : ℤ := q.num.tdiv q.den

/-- The fixed price scale factor from src/book/mod.rs. -/
def PRICE_MULTIPLIER : ℚ := 100000000

/-- crate::types::Quote with numeric fields as exact values. -/
structure Quote where
  symbol : String
  bid : ℚ
  ask : ℚ
  bid_size : ℚ
  ask_size : ℚ
  venue : String
  timestamp : ℕ
deriving Repr, DecidableEq

/-- Insertion into a key-sorted association list, replacing an existing key:
the model of BTreeMap insert used by OrderBook. -/
def insertLevel (k : ℤ) (v : ℚ) : List (ℤ × ℚ) → List (ℤ × ℚ)
  | [] => [(k, v)]
  | (k₁, v₁) :: rest =>
    if k < k₁ then (k, v) :: (k₁, v₁) :: rest
    else if k = k₁ then (k, v) :: rest
    else (k₁, v₁) :: insertLevel k v rest

/-- src/book/mod.rs OrderBook: two BTreeMap price sides, keys are scaled prices. -/
structure OrderBook where
  symbol : String
  bids : List (ℤ × ℚ)
  asks : List (ℤ × ℚ)
deriving Repr, DecidableEq

/-- OrderBook::new. -/
def OrderBook.new (symbol : String) : OrderBook :=
  { symbol := symbol, bids := [], asks := [] }

/-- OrderBook::update: each side is upserted only when the corresponding quoted
price is strictly positive; the size is stored as given (zero included). -/
def OrderBook.update (b : OrderBook) (q : Quote) : OrderBook :=
  let b₁ :=
    if q.bid > 0 then
      { b with bids := insertLevel (ratTrunc (q.bid * PRICE_MULTIPLIER)) q.bid_size b.bids }
    else b
  if q.ask > 0 then
    { b₁ with asks := insertLevel (ratTrunc (q.ask * PRICE_MULTIPLIER)) q.ask_size b₁.asks }
  else b₁

/-- OrderBook::best_bid: the maximal key of the bid side (the last entry of the
sorted list, as BTreeMap iter().next_back()), descaled. -/
def OrderBook.best_bid (b : OrderBook) : Option (ℚ × ℚ) :=
  b.bids.getLast?.map (fun p => ((p.1 : ℚ) / PRICE_MULTIPLIER, p.2))

/-- OrderBook::best_ask: the minimal key of the ask side (the first entry of the
sorted list, as BTreeMap iter().next()), descaled. -/
def OrderBook.best_ask (b : OrderBook) : Option (ℚ × ℚ) :=
  b.asks.head?.map (fun p => ((p.1 : ℚ) / PRICE_MULTIPLIER, p.2))

/-- A book side is well formed when its keys are strictly increasing. -/
def SideSorted (l : List (ℤ × ℚ)) : Prop :=
  l.Pairwise (fun a b => a.1 < b.1)

/-- A well-formed book: both sides are key-sorted. -/
def OrderBook.WF (b : OrderBook) : Prop :=
  SideSorted b.bids ∧ SideSorted b.asks

/-- BookBuilder's consuming loop restricted to one symbol: the book that
results from applying a sequence of quotes to a fresh book. -/
def applyQuotes (sym : String) (qs : List Quote) : OrderBook :=
  qs.foldl OrderBook.update (OrderBook.new sym)

/-- Test fixture: the first quote of the zero-size-removal scenario. -/
def c1Quote₁ : Quote :=
  { symbol := "BTCUSDT", bid := 50000, ask := 50010, bid_size := 1, ask_size := 1,
    venue := "TEST", timestamp := 0 }

/-- Test fixture: the same prices quoted again with sizes 0.0. -/
def c1Quote₂ : Quote :=
  { symbol := "BTCUSDT", bid := 50000, ask := 50010, bid_size := 0, ask_size := 0,
    venue := "TEST", timestamp := 0 }

/-- Test fixture: the quote of the spec's best-bid/best-ask scenario. -/
def c5Quote : Quote :=
  { symbol := "BTCUSDT", bid := 50000, ask := 50001, bid_size := 3 / 2, ask_size := 5 / 2,
    venue := "TEST", timestamp := 0 }

/-- Test fixture: a quote with non-positive bid and ask. -/
def c10Quote : Quote :=
  { symbol := "BTCUSDT", bid := -1, ask := 0, bid_size := 7, ask_size := 8,
    venue := "TEST", timestamp := 0 }

/-- crate::error::GatewayError. -/
inductive GatewayError where
  | NoVenuesConfigured
  | InvalidSymbol (msg : String)
  | ChannelCapacityExceeded
  | VenueNotFound (name : String)
  | ChannelSendFailed (msg : String)
  | SubscriptionFailed (msg : String)
  | NotRunning
deriving Repr, DecidableEq

/-- crate::error::HftError, restricted to the variants the gateway produces;
venue-side errors are carried as their rendered message. -/
inductive HftError where
  | gateway (e : GatewayError)
  | venue (msg : String)
deriving Repr, DecidableEq

/-- A registered venue adapter, modelled by its observable behaviour: its name,
the outcome of subscribe_quotes per symbol list (the error as its rendered
message), and the outcome of stop(). -/
structure Venue where
  name : String
  subscribeQuotes : List String → Except String Unit
  stopResult : Except HftError Unit

/-- The mutable state of crate::gateways::quote::QuoteGateway. -/
structure GatewayState where
  venues : List Venue
  subscriptions : List (String × List String)
  is_running : Bool

/-- Result of a gateway call together with its observable effects: the venues
whose stop() was invoked (in order) and whether the outbound quote channel was
closed by the call. -/
structure GatewayOut where
  result : Except HftError Unit
  state : GatewayState
  stopped : List String
  channelClosed : Bool

/-- HashMap::insert keyed by venue name (replace an existing entry, else add). -/
def insertSub (k : String) (v : List String) :
    List (String × List String) → List (String × List String)
  | [] => [(k, v)]
  | (k₁, v₁) :: rest =>
    if k = k₁ then (k, v) :: rest else (k₁, v₁) :: insertSub k v rest

/-- The per-venue loop inside QuoteGateway::subscribe: on success insert the
venue in the subscription table, on failure push (venue name, error) onto the
error list, preserving iteration order. -/
def runSubs (symbols : List String) (subs : List (String × List String)) :
    List Venue → List (String × List String) × List (String × String)
  | [] => (subs, [])
  | v :: vs =>
    match v.subscribeQuotes symbols with
    | .ok _ => runSubs symbols (insertSub v.name symbols subs) vs
    | .error e =>
      let r := runSubs symbols subs vs
      (r.1, (v.name, e) :: r.2)

/-- The aggregated error message of QuoteGateway::subscribe: per-venue messages
joined by a comma. -/
def joinErrors (errors : List (String × String)) : String :=
  String.intercalate ", " (errors.map (fun p => p.1 ++ ": " ++ p.2))

/-- QuoteGateway::subscribe as a state transformer. -/
def QuoteGateway.subscribe (st : GatewayState) (symbols : List String) :
    Except HftError Unit × GatewayState :=
  if symbols.isEmpty then
    (.error (.gateway (.InvalidSymbol "Empty symbol list")), st)
  else if st.venues.isEmpty then
    (.error (.gateway .NoVenuesConfigured), st)
  else
    let r := runSubs symbols st.subscriptions st.venues
    if r.2.length = st.venues.length then
      (.error (.gateway (.SubscriptionFailed (joinErrors r.2))),
       { st with subscriptions := r.1 })
    else
      (.ok (), { st with subscriptions := r.1, is_running := true })

/-- QuoteGateway::remove_venue: drain the registry keeping venues of a different
name (the drain loop keeps the last matching venue as removed_venue); if nothing
was removed restore the registry and fail, else stop the removed venue,
propagating its stop error. -/
def QuoteGateway.remove_venue (st : GatewayState) (venue_name : String) : GatewayOut :=
  let newVenues := st.venues.filter (fun v => v.name ≠ venue_name)
  if newVenues.length = st.venues.length then
    { result := .error (.gateway (.VenueNotFound venue_name)), state := st,
      stopped := [], channelClosed := false }
  else
    match (st.venues.filter (fun v => v.name = venue_name)).getLast? with
    | some v =>
      { result := v.stopResult, state := { st with venues := newVenues },
        stopped := [v.name], channelClosed := false }
    | none =>
      { result := .ok (), state := { st with venues := newVenues },
        stopped := [], channelClosed := false }

/-- QuoteGateway::unsubscribe_all: clear the running flag and the subscription
table; nothing else is touched. -/
def QuoteGateway.unsubscribe_all (st : GatewayState) : GatewayOut :=
  { result := .ok (), state := { st with is_running := false, subscriptions := [] },
    stopped := [], channelClosed := false }

/-- src/venues/binance.rs constant. -/
def MAX_RECONNECT_ATTEMPTS : ℕ := 5

/-- src/venues/binance.rs constant (milliseconds). -/
def RECONNECT_DELAY_MS : ℕ := 5000

/-- The deserialized bookTicker payload; all numeric fields arrive as strings. -/
structure BinanceBookTicker where
  symbol : String
  best_bid_price : String
  best_bid_quantity : String
  best_ask_price : String
  best_ask_quantity : String
  time : ℕ

/-- An f64 value as produced by str::parse::<f64>, which accepts not only
finite decimals but also the non-finite spellings: "nan" parses to NaN and
"inf"/"-inf" to the infinities. Finite values are carried exactly. -/
inductive F64 where
  | finite (val : ℚ)
  | nan
  | inf
  | negInf
deriving Repr, DecidableEq

/-- The IEEE-754 comparison x <= 0.0: every comparison on NaN is false, so NaN
is not caught; +inf is not caught either; -inf is. -/
def F64.leZero : F64 → Bool
  | .finite v => v ≤ 0
  | .nan => false
  | .inf => false
  | .negInf => true

/-- The IEEE-754 comparison 0.0 < x (strict positivity): false on NaN. -/
def F64.gtZero : F64 → Bool
  | .finite v => 0 < v
  | .nan => false
  | .inf => true
  | .negInf => false

/-- crate::types::Quote as constructed on the message-validation path, with the
numeric fields as f64 values that may be non-finite; the exact-rational Quote
above is the same struct restricted to the finite values the book side stores. -/
structure QuoteF64 where
  symbol : String
  bid : F64
  ask : F64
  bid_size : F64
  ask_size : F64
  venue : String
  timestamp : ℕ
deriving Repr, DecidableEq

/-- One iteration of BinanceVenue::process_websocket_messages on a successfully
deserialized ticker: each numeric field is parsed as f64 (so "nan" succeeds,
producing NaN), a parse failure falling back to 0.0 (unwrap_or); the tick is
dropped (continue: no error, no send) when any of the four IEEE comparisons
value <= 0.0 holds, else the Quote is forwarded as is. -/
def processTicker (parse : String → Option F64) (now : ℕ) (t : BinanceBookTicker) :
    Option QuoteF64 :=
  let bid := (parse t.best_bid_price).getD (.finite 0)
  let ask := (parse t.best_ask_price).getD (.finite 0)
  let bid_size := (parse t.best_bid_quantity).getD (.finite 0)
  let ask_size := (parse t.best_ask_quantity).getD (.finite 0)
  if bid.leZero || ask.leZero || bid_size.leZero || ask_size.leZero then none
  else
    some { symbol := t.symbol, bid := bid, ask := ask, bid_size := bid_size,
           ask_size := ask_size, venue := "BINANCE_FUTURES", timestamp := now }

/-- Outcome of the connection retry loop: how many attempts were made, the
inter-attempt sleep delays (in ms, in order), and on failure the rendered
ConnectionFailed message. -/
inductive RetryResult where
  | connected (attempts : ℕ) (delays : List ℕ)
  | failed (attempts : ℕ) (message : String) (delays : List ℕ)
deriving Repr, DecidableEq

/-- The body of BinanceVenue::ws_connect_with_retry: attempts counts the
connection attempts already made; connect n is none when the n-th attempt
succeeds and some e when it fails with error e. -/
def retryAux (connect : ℕ → Option String) (max_attempts : ℕ) (attempts : ℕ) :
    RetryResult :=
  match connect (attempts + 1) with
  | none => .connected (attempts + 1) []
  | some e =>
    if h : max_attempts ≤ attempts + 1 then
      .failed (attempts + 1)
        ("Failed after " ++ toString (attempts + 1) ++ " attempts: " ++ e) []
    else
      match retryAux connect max_attempts (attempts + 1) with
      | .connected a ds => .connected a (RECONNECT_DELAY_MS :: ds)
      | .failed a m ds => .failed a m (RECONNECT_DELAY_MS :: ds)
termination_by max_attempts - attempts
decreasing_by omega

/-- BinanceVenue::ws_connect_with_retry starts with zero attempts made. -/
def ws_connect_with_retry (connect : ℕ → Option String) (max_attempts : ℕ) :
    RetryResult :=
  retryAux connect max_attempts 0

/-- The rendered error message a venue produces for a symbol list (empty when
the venue succeeds; only used under an all-failed hypothesis). -/
def venueErr (symbols : List String) (v : Venue) : String :=
  match v.subscribeQuotes symbols with
  | .ok _ => ""
  | .error e => e

/-- The number of connection attempts a retry outcome records. -/
def RetryResult.attempts : RetryResult → ℕ
  | .connected a _ => a
  | .failed a _ _ => a

/-- Test fixture: a venue whose subscribe_quotes always succeeds. -/
def okVenue (nm : String) : Venue :=
  { name := nm, subscribeQuotes := fun _ => .ok (), stopResult := .ok () }

/-- Test fixture: a venue whose subscribe_quotes always fails with msg. -/
def failVenue (nm msg : String) : Venue :=
  { name := nm, subscribeQuotes := fun _ => .error msg, stopResult := .ok () }

/-- Test fixture: a fresh gateway state holding the given venues. -/
def testGateway (vs : List Venue) : GatewayState :=
  { venues := vs, subscriptions := [], is_running := false }

/-- Test fixture: a connection that fails on every attempt. -/
def alwaysFailConnect : ℕ → Option String := fun i => some ("err" ++ toString i)

/-- Test fixture: the relevant fragment of str::parse::<f64> — "nan" parses
successfully to NaN, "1.5" to 1.5, anything else fails. -/
def nanParse : String → Option F64 := fun s =>
  if s = "nan" then some .nan
  else if s = "1.5" then some (.finite (3 / 2)) else none

/-- Test fixture: a well-formed bookTicker message whose best bid price field
is the string "nan"; serde deserializes it (the numeric fields are strings). -/
def c4NanTicker : BinanceBookTicker :=
  { symbol := "BTCUSDT", best_bid_price := "nan", best_bid_quantity := "1.5",
    best_ask_price := "1.5", best_ask_quantity := "1.5", time := 0 }

/-- The exact product of two rationals, assembled from numerators and
denominators so that it stays reducible for the kernel (the field
multiplication on ℚ is sealed); provably equal to a * b. -/
def ratMul (a b : ℚ) : ℚ := Rat.divInt (a.num * b.num) ((a.den : ℤ) * (b.den : ℤ))

/-- The exact quotient of two rationals, assembled from numerators and
denominators for the same reason; provably equal to a / b. -/
def ratDiv (a b : ℚ) : ℚ := Rat.divInt (a.num * (b.den : ℤ)) ((a.den : ℤ) * b.num)

/-- Fuel-driven binary logarithm on naturals (floor of log2, fuel ≥ n suffices). -/
def log2fuel : ℕ → ℕ → ℕ
  | 0, _ => 0
  | fuel + 1, n => if n ≤ 1 then 0 else log2fuel fuel (n / 2) + 1

/-- Floor of the binary logarithm of a positive natural. -/
def natLog2 (n : ℕ) : ℕ := log2fuel n n

/-- Fuel-driven least m with b ≤ a * 2 ^ m (fuel ≥ b suffices for a > 0). -/
def clog2fuel : ℕ → ℕ → ℕ → ℕ
  | 0, _, _ => 0
  | fuel + 1, a, b => if b ≤ a then 0 else clog2fuel fuel (2 * a) b + 1

/-- The binary exponent of a positive rational: the unique e with
2 ^ e ≤ q < 2 ^ (e + 1). -/
def ratExp (q : ℚ) : ℤ :=
  if 1 ≤ q then (natLog2 (q.num.toNat / q.den) : ℤ)
  else -(clog2fuel q.den q.num.toNat q.den : ℤ)

/-- Round the fraction num / den (den positive; the model only uses it with a
nonnegative numerator) to the nearest integer, ties to even. -/
def rnePair (num den : ℤ) : ℤ :=
  let f := num / den
  let r := num % den
  if 2 * r < den then f
  else if den < 2 * r then f + 1
  else if f % 2 = 0 then f else f + 1

/-- The IEEE-754 binary64 rounding (round to nearest, ties to even) of a
positive rational in the normal range: the significand q * 2 ^ (52 - e) is
rounded to an integer and placed back at the binary exponent e of q. -/
def flPos (q : ℚ) : ℚ :=
  let e := ratExp q
  if e ≤ 52 then
    Rat.divInt (rnePair (q.num * 2 ^ (52 - e).toNat) (q.den : ℤ)) (2 ^ (52 - e).toNat)
  else
    Rat.divInt (rnePair q.num ((q.den : ℤ) * 2 ^ (e - 52).toNat) * 2 ^ (e - 52).toNat) 1

/-- Binary64 rounding of an exact rational (normal range; the price domain of
the engine never reaches subnormals or overflow). -/
def fl64 (q : ℚ) : ℚ :=
  if q = 0 then 0 else if 0 < q then flPos q else -flPos (-q)

/-- The scaled key OrderBook::update computes in f64 arithmetic for an f64
price p: the product p * 100_000_000.0 rounds once (the multiplier is exactly
representable, so the f64 product is the rounding of the exact product), then
the i64 cast truncates toward zero. -/
def scalePrice64 (p : ℚ) : ℤ := ratTrunc (fl64 (ratMul p 100000000))

/-- The descaled price best_bid and best_ask compute in f64 arithmetic for a
key k: the i64 to f64 cast is exact for the magnitudes involved, and the
division by 100_000_000.0 rounds once. -/
def descalePrice64 (k : ℤ) : ℚ := fl64 (ratDiv (k : ℚ) 100000000)

/-- The f64 value of a decimal price with 8 fractional digits, n / 10 ^ 8. -/
def priceDouble (n : ℕ) : ℚ := descalePrice64 (n : ℤ)

theorem insertLevel_keys_subset (k : ℤ) (v : ℚ) (l : List (ℤ × ℚ)) :
    ∀ p ∈ insertLevel k v l, p.1 = k ∨ p ∈ l := by
  induction l with
  | nil => simp [insertLevel]
  | cons hd tl ih =>
    intro p hp
    by_cases h₁ : k < hd.1
    · simp [insertLevel, h₁] at hp
      rcases hp with h | h | h
      · exact Or.inl (by simp [h])
      · exact Or.inr (by simp [h])
      · exact Or.inr (List.mem_cons_of_mem hd h)
    · by_cases h₂ : k = hd.1
      · simp [insertLevel, h₁, h₂] at hp
        rcases hp with h | h
        · exact Or.inl (by simp [h, h₂])
        · exact Or.inr (List.mem_cons_of_mem hd h)
      · simp [insertLevel, h₁, h₂] at hp
        rcases hp with h | h
        · exact Or.inr (by simp [h])
        · rcases ih p h with h' | h'
          · exact Or.inl h'
          · exact Or.inr (List.mem_cons_of_mem hd h')

theorem insertLevel_sorted (k : ℤ) (v : ℚ) (l : List (ℤ × ℚ))
    (hl : SideSorted l) : SideSorted (insertLevel k v l) := by
  induction l with
  | nil => simp [insertLevel, SideSorted]
  | cons hd tl ih =>
    rcases List.pairwise_cons.mp hl with ⟨hhd, htl⟩
    by_cases h₁ : k < hd.1
    · simp only [SideSorted, insertLevel, if_pos h₁]
      refine List.pairwise_cons.mpr ⟨?_, hl⟩
      intro p hp
      rcases List.mem_cons.mp hp with h | h
      · simpa [h] using h₁
      · exact lt_trans h₁ (hhd p h)
    · by_cases h₂ : k = hd.1
      · simp only [SideSorted, insertLevel, if_neg h₁, if_pos h₂]
        refine List.pairwise_cons.mpr ⟨?_, htl⟩
        intro p hp
        simpa [h₂] using hhd p hp
      · simp only [SideSorted, insertLevel, if_neg h₁, if_neg h₂]
        refine List.pairwise_cons.mpr ⟨?_, ih htl⟩
        intro p hp
        rcases insertLevel_keys_subset k v tl p hp with h | h
        · have : hd.1 < k := lt_of_le_of_ne (not_lt.mp h₁) (Ne.symm h₂)
          simpa [h] using this
        · exact hhd p h

theorem insertLevel_ne_nil (k : ℤ) (v : ℚ) (l : List (ℤ × ℚ)) :
    insertLevel k v l ≠ [] := by
  cases l with
  | nil => simp [insertLevel]
  | cons hd tl =>
    by_cases h₁ : k < hd.1
    · simp [insertLevel, h₁]
    · by_cases h₂ : k = hd.1 <;> simp [insertLevel, h₁, h₂]

theorem OrderBook.new_wf (s : String) : (OrderBook.new s).WF := by
  constructor <;> simp [OrderBook.new, SideSorted]

theorem OrderBook.update_wf (b : OrderBook) (q : Quote) (hb : b.WF) :
    (b.update q).WF := by
  rcases hb with ⟨hbids, hasks⟩
  unfold OrderBook.update
  by_cases hq : q.bid > 0 <;> by_cases ha : q.ask > 0 <;>
    simp only [if_pos, if_neg, hq, ha, ite_true, ite_false] <;>
    exact ⟨by first | exact insertLevel_sorted _ _ _ hbids | exact hbids,
           by first | exact insertLevel_sorted _ _ _ hasks | exact hasks⟩

theorem getLast?_mem_of_eq {α : Type} {l : List α} {a : α}
    (h : l.getLast? = some a) : a ∈ l := by
  induction l with
  | nil => simp at h
  | cons hd tl ih =>
    cases tl with
    | nil => simp at h; simp [h]
    | cons b t =>
      rw [List.getLast?_cons_cons] at h
      exact List.mem_cons_of_mem _ (ih h)

theorem sideSorted_getLast_max {l : List (ℤ × ℚ)} (hl : SideSorted l) {p : ℤ × ℚ}
    (hp : l.getLast? = some p) : ∀ x ∈ l, x.1 ≤ p.1 := by
  induction l with
  | nil => simp at hp
  | cons hd tl ih =>
    rcases List.pairwise_cons.mp hl with ⟨hhd, htl⟩
    cases tl with
    | nil =>
      simp at hp
      intro x hx
      simp at hx
      simp [hx, hp]
    | cons b t =>
      rw [List.getLast?_cons_cons] at hp
      intro x hx
      rcases List.mem_cons.mp hx with h | h
      · have hpmem : p ∈ b :: t := getLast?_mem_of_eq hp
        exact h ▸ le_of_lt (hhd p hpmem)
      · exact ih htl hp x h

theorem sideSorted_head_min {l : List (ℤ × ℚ)} (hl : SideSorted l) {p : ℤ × ℚ}
    (hp : l.head? = some p) : ∀ x ∈ l, p.1 ≤ x.1 := by
  cases l with
  | nil => simp at hp
  | cons hd tl =>
    simp at hp
    intro x hx
    rcases List.mem_cons.mp hx with h | h
    · simp [h, hp]
    · exact hp ▸ le_of_lt ((List.pairwise_cons.mp hl).1 x h)

theorem foldl_update_wf (qs : List Quote) (b : OrderBook) (hb : b.WF) :
    (qs.foldl OrderBook.update b).WF := by
  induction qs generalizing b with
  | nil => exact hb
  | cons q qs ih => exact ih _ (OrderBook.update_wf b q hb)

theorem applyQuotes_wf (sym : String) (qs : List Quote) : (applyQuotes sym qs).WF :=
  foldl_update_wf qs _ (OrderBook.new_wf sym)

/-- Claim C5: after any sequence of updates, best_bid is empty exactly when the
bid side is empty and otherwise returns the maximum-keyed bid level descaled by
1e8 with its stored size; symmetrically best_ask returns the minimum-keyed ask
level; a book with no updates returns none on both sides. -/
theorem c5_best_bid_ask (sym : String) (qs : List Quote) :
    ((applyQuotes sym qs).best_bid = none ↔ (applyQuotes sym qs).bids = []) ∧
    ((applyQuotes sym qs).best_ask = none ↔ (applyQuotes sym qs).asks = []) ∧
    (∀ p s, (applyQuotes sym qs).best_bid = some (p, s) →
      ∃ k, (k, s) ∈ (applyQuotes sym qs).bids ∧ p = (k : ℚ) / PRICE_MULTIPLIER ∧
        ∀ x ∈ (applyQuotes sym qs).bids, x.1 ≤ k) ∧
    (∀ p s, (applyQuotes sym qs).best_ask = some (p, s) →
      ∃ k, (k, s) ∈ (applyQuotes sym qs).asks ∧ p = (k : ℚ) / PRICE_MULTIPLIER ∧
        ∀ x ∈ (applyQuotes sym qs).asks, k ≤ x.1) ∧
    (applyQuotes sym []).best_bid = none ∧ (applyQuotes sym []).best_ask = none := by
  have hwf := applyQuotes_wf sym qs
  refine ⟨?_, ?_, ?_, ?_, ?_, ?_⟩
  · unfold OrderBook.best_bid
    cases hg : (applyQuotes sym qs).bids.getLast? with
    | none => simpa [hg] using List.getLast?_eq_none_iff.mp hg
    | some pr =>
      simp only [hg, Option.map_some']
      constructor
      · intro h; exact absurd h (by simp)
      · intro h; rw [h] at hg; simp at hg
  · unfold OrderBook.best_ask
    cases hg : (applyQuotes sym qs).asks.head? with
    | none => simpa [hg] using List.head?_eq_none_iff.mp hg
    | some pr =>
      simp only [hg, Option.map_some']
      constructor
      · intro h; exact absurd h (by simp)
      · intro h; rw [h] at hg; simp at hg
  · intro p s h
    unfold OrderBook.best_bid at h
    cases hg : (applyQuotes sym qs).bids.getLast? with
    | none => rw [hg] at h; simp at h
    | some pr =>
      rw [hg] at h
      simp only [Option.map_some', Option.some.injEq, Prod.mk.injEq] at h
      refine ⟨pr.1, ?_, h.1.symm, ?_⟩
      · have := getLast?_mem_of_eq hg
        rwa [show ((pr.1, s) : ℤ × ℚ) = pr by rw [← h.2]] 
      · exact sideSorted_getLast_max hwf.1 hg
  · intro p s h
    unfold OrderBook.best_ask at h
    cases hg : (applyQuotes sym qs).asks.head? with
    | none => rw [hg] at h; simp at h
    | some pr =>
      rw [hg] at h
      simp only [Option.map_some', Option.some.injEq, Prod.mk.injEq] at h
      refine ⟨pr.1, ?_, h.1.symm, ?_⟩
      · have := List.mem_of_mem_head? (hg ▸ rfl : pr ∈ (applyQuotes sym qs).asks.head?)
        rwa [show ((pr.1, s) : ℤ × ℚ) = pr by rw [← h.2]]
      · exact sideSorted_head_min hwf.2 hg
  · simp [applyQuotes, OrderBook.new, OrderBook.best_bid]
  · simp [applyQuotes, OrderBook.new, OrderBook.best_ask]

/-- Witness for claim C5 at the spec's scenario quote. -/
theorem c5_witness :
    ∃ k, (k, (3 / 2 : ℚ)) ∈ (applyQuotes "BTCUSDT" [c5Quote]).bids ∧
      (50000 : ℚ) = (k : ℚ) / PRICE_MULTIPLIER ∧
      ∀ x ∈ (applyQuotes "BTCUSDT" [c5Quote]).bids, x.1 ≤ k :=
  (c5_best_bid_ask "BTCUSDT" [c5Quote]).2.2.1 50000 (3 / 2) (by
    norm_num [applyQuotes, OrderBook.update, OrderBook.new, OrderBook.best_bid,
      insertLevel, ratTrunc, PRICE_MULTIPLIER, c5Quote,
      Rat.num_ofNat, Rat.den_ofNat, Int.tdiv_one])

/-- Claim C1 (code bug): contrary to the spec and to the repository's own
test_order_book_remove_level, a quote repeating a stored bid price with
bid_size 0.0 does not remove the level: OrderBook::update unconditionally
inserts while quote.bid > 0, so the zero size is stored and the level count
does not decrease (symmetrically for the ask side). -/
theorem c1_zero_size_level_not_removed :
    (((OrderBook.new "BTCUSDT").update c1Quote₁).update c1Quote₂).bids =
      [(5000000000000, 0)] ∧
    (((OrderBook.new "BTCUSDT").update c1Quote₁).update c1Quote₂).asks =
      [(5001000000000, 0)] ∧
    (((OrderBook.new "BTCUSDT").update c1Quote₁).update c1Quote₂).bids.length =
      (((OrderBook.new "BTCUSDT").update c1Quote₁)).bids.length := by
  norm_num [OrderBook.update, OrderBook.new, insertLevel, ratTrunc, PRICE_MULTIPLIER,
    c1Quote₁, c1Quote₂, Rat.num_ofNat, Rat.den_ofNat, Int.tdiv_one]

/-- Claim C10: a quote whose bid is not strictly positive leaves the bid side
unchanged, one whose ask is not strictly positive leaves the ask side
unchanged, and one with both non-positive leaves the whole book unchanged,
regardless of the sizes carried. -/
theorem c10_update_nonpositive_frame (b : OrderBook) (q : Quote) :
    (q.bid ≤ 0 → (b.update q).bids = b.bids) ∧
    (q.ask ≤ 0 → (b.update q).asks = b.asks) ∧
    (q.bid ≤ 0 → q.ask ≤ 0 → b.update q = b) := by
  unfold OrderBook.update
  refine ⟨?_, ?_, ?_⟩
  · intro h
    by_cases ha : q.ask > 0 <;> simp [not_lt.mpr h, ha]
  · intro h
    by_cases hb : q.bid > 0 <;> simp [not_lt.mpr h, hb]
  · intro h ha
    simp [not_lt.mpr h, not_lt.mpr ha]

/-- Witness for claim C10 at a concrete non-positive quote. -/
theorem c10_witness :
    ((-1 : ℚ) ≤ 0 ∧ (0 : ℚ) ≤ 0) ∧
    ((OrderBook.new "BTCUSDT").update c10Quote).bids = (OrderBook.new "BTCUSDT").bids ∧
    (OrderBook.new "BTCUSDT").update c10Quote = OrderBook.new "BTCUSDT" :=
  ⟨⟨by norm_num, le_refl 0⟩,
   (c10_update_nonpositive_frame (OrderBook.new "BTCUSDT") c10Quote).1
     (by norm_num [c10Quote]),
   (c10_update_nonpositive_frame (OrderBook.new "BTCUSDT") c10Quote).2.2
     (by norm_num [c10Quote]) (by norm_num [c10Quote])⟩

theorem runSubs_snd_indep (symbols : List String) (vs : List Venue)
    (subs₁ subs₂ : List (String × List String)) :
    (runSubs symbols subs₁ vs).2 = (runSubs symbols subs₂ vs).2 := by
  induction vs generalizing subs₁ subs₂ with
  | nil => rfl
  | cons v vs ih =>
    unfold runSubs
    cases v.subscribeQuotes symbols with
    | ok u => exact ih _ _
    | error e => simp [ih subs₁ subs₂]

theorem runSubs_len_le (symbols : List String) (subs : List (String × List String))
    (vs : List Venue) : (runSubs symbols subs vs).2.length ≤ vs.length := by
  induction vs generalizing subs with
  | nil => simp [runSubs]
  | cons v vs ih =>
    unfold runSubs
    cases v.subscribeQuotes symbols with
    | ok u => exact le_trans (ih _) (Nat.le_succ _)
    | error e => simpa using ih subs

theorem runSubs_all_fail_iff (symbols : List String) (subs : List (String × List String))
    (vs : List Venue) :
    (runSubs symbols subs vs).2.length = vs.length ↔
      ∀ v ∈ vs, ∃ e, v.subscribeQuotes symbols = .error e := by
  induction vs generalizing subs with
  | nil => simp [runSubs]
  | cons v vs ih =>
    unfold runSubs
    cases hv : v.subscribeQuotes symbols with
    | ok u =>
      simp only [List.length_cons]
      constructor
      · intro h
        have := runSubs_len_le symbols (insertSub v.name symbols subs) vs
        omega
      · intro h
        rcases h v (List.mem_cons_self v vs) with ⟨e, he⟩
        rw [hv] at he
        cases he
    | error e =>
      simp only [List.length_cons, Nat.succ_injective.eq_iff]
      rw [ih subs]
      constructor
      · intro h x hx
        rcases List.mem_cons.mp hx with rfl | hx
        · exact ⟨e, hv⟩
        · exact h x hx
      · intro h x hx
        exact h x (List.mem_cons_of_mem v hx)

theorem runSubs_all_fail_spec (symbols : List String) (subs : List (String × List String))
    (vs : List Venue) (h : ∀ v ∈ vs, ∃ e, v.subscribeQuotes symbols = .error e) :
    runSubs symbols subs vs =
      (subs, vs.map (fun v => (v.name, venueErr symbols v))) := by
  induction vs generalizing subs with
  | nil => simp [runSubs]
  | cons v vs ih =>
    rcases h v (List.mem_cons_self v vs) with ⟨e, he⟩
    unfold runSubs
    rw [he]
    have hrest := ih subs (fun x hx => h x (List.mem_cons_of_mem v hx))
    simp [hrest, venueErr, he]

/-- Claim C2: with a non-empty symbol list and at least one registered venue,
subscribe succeeds and sets the running flag as soon as one venue's
subscribe_quotes succeeds, and it returns SubscriptionFailed joining every
venue's error exactly when every venue failed. -/
theorem c2_subscribe_partial_failure (st : GatewayState) (symbols : List String)
    (hs : symbols ≠ []) (hv : st.venues ≠ []) :
    ((∃ v ∈ st.venues, ∃ u, v.subscribeQuotes symbols = .ok u) →
      (QuoteGateway.subscribe st symbols).1 = .ok () ∧
      (QuoteGateway.subscribe st symbols).2.is_running = true) ∧
    ((∀ v ∈ st.venues, ∃ e, v.subscribeQuotes symbols = .error e) ↔
      (QuoteGateway.subscribe st symbols).1 =
        .error (.gateway (.SubscriptionFailed
          (joinErrors (st.venues.map (fun v => (v.name, venueErr symbols v))))))) := by
  have hs' : symbols.isEmpty = false := by simpa using hs
  have hv' : st.venues.isEmpty = false := by simpa using hv
  constructor
  · rintro ⟨v, hvm, u, hu⟩
    have hlen : (runSubs symbols st.subscriptions st.venues).2.length ≠ st.venues.length := by
      intro h
      rcases (runSubs_all_fail_iff symbols st.subscriptions st.venues).mp h v hvm with ⟨e, he⟩
      rw [hu] at he
      cases he
    simp [QuoteGateway.subscribe, hs', hv', hlen]
  · constructor
    · intro h
      have := runSubs_all_fail_spec symbols st.subscriptions st.venues h
      simp [QuoteGateway.subscribe, hs', hv', this]
    · intro h
      by_cases hlen : (runSubs symbols st.subscriptions st.venues).2.length = st.venues.length
      · exact (runSubs_all_fail_iff symbols st.subscriptions st.venues).mp hlen
      · simp [QuoteGateway.subscribe, hs', hv', hlen] at h

/-- Witness for claim C2: one of two venues fails, subscribe still succeeds
and the gateway is running. -/
theorem c2_witness :
    (["BTCUSDT"] : List String) ≠ [] ∧
    (QuoteGateway.subscribe (testGateway [okVenue "MOCK1", failVenue "MOCK2" "boom"])
        ["BTCUSDT"]).1 = .ok () ∧
    (QuoteGateway.subscribe (testGateway [okVenue "MOCK1", failVenue "MOCK2" "boom"])
        ["BTCUSDT"]).2.is_running = true :=
  ⟨by simp,
   (c2_subscribe_partial_failure (testGateway [okVenue "MOCK1", failVenue "MOCK2" "boom"])
      ["BTCUSDT"] (by simp) (by simp [testGateway])).1
     ⟨okVenue "MOCK1", List.mem_cons_self _ _, (), rfl⟩ |>.1,
   (c2_subscribe_partial_failure (testGateway [okVenue "MOCK1", failVenue "MOCK2" "boom"])
      ["BTCUSDT"] (by simp) (by simp [testGateway])).1
     ⟨okVenue "MOCK1", List.mem_cons_self _ _, (), rfl⟩ |>.2⟩

/-- Claim C6: subscribe on an empty symbol list fails with InvalidSymbol before
any venue check, and with a non-empty list but no registered venues it fails
with NoVenuesConfigured; both failures leave the state untouched. -/
theorem c6_subscribe_guards (st : GatewayState) (symbols : List String) :
    (QuoteGateway.subscribe st [] =
      (.error (.gateway (.InvalidSymbol "Empty symbol list")), st)) ∧
    (symbols ≠ [] → st.venues = [] →
      QuoteGateway.subscribe st symbols = (.error (.gateway .NoVenuesConfigured), st)) := by
  constructor
  · simp [QuoteGateway.subscribe]
  · intro hs hv
    have hs' : symbols.isEmpty = false := by simpa using hs
    simp [QuoteGateway.subscribe, hs', hv]

/-- Witness for claim C6 with concrete states: no venues registered and an
empty symbol list. -/
theorem c6_witness :
    QuoteGateway.subscribe (testGateway []) ["BTCUSDT"] =
      (.error (.gateway .NoVenuesConfigured), testGateway []) ∧
    QuoteGateway.subscribe (testGateway [okVenue "MOCK1"]) [] =
      (.error (.gateway (.InvalidSymbol "Empty symbol list")),
       testGateway [okVenue "MOCK1"]) :=
  ⟨(c6_subscribe_guards (testGateway []) ["BTCUSDT"]).2 (by simp) rfl,
   (c6_subscribe_guards (testGateway [okVenue "MOCK1"]) ["ETHUSDT"]).1⟩

theorem length_filter_eq_all {α : Type} (p : α → Bool) (l : List α)
    (h : (l.filter p).length = l.length) : ∀ a ∈ l, p a := by
  induction l with
  | nil => simp
  | cons a l ih =>
    by_cases hp : p a
    · simp only [List.filter_cons, hp, if_true, List.length_cons,
        Nat.succ_injective.eq_iff] at h
      intro x hx
      rcases List.mem_cons.mp hx with rfl | hx
      · exact hp
      · exact ih h x hx
    · simp only [List.filter_cons, hp, if_false, Bool.false_eq_true,
        List.length_cons] at h
      have := List.length_filter_le p l
      omega

/-- Claim C7: remove_venue on an unknown name fails with VenueNotFound leaving
the registry (and everything else) exactly as it was with no stop() call;
on a registered name it removes the matching adapter, calls stop() on it, and
preserves every venue with a different name as well as the rest of the state. -/
theorem c7_remove_venue (st : GatewayState) (n : String) :
    ((∀ v ∈ st.venues, v.name ≠ n) →
      QuoteGateway.remove_venue st n =
        { result := .error (.gateway (.VenueNotFound n)), state := st,
          stopped := [], channelClosed := false }) ∧
    ((∃ v ∈ st.venues, v.name = n) →
      ((QuoteGateway.remove_venue st n).state.venues =
          st.venues.filter (fun v => v.name ≠ n) ∧
       (QuoteGateway.remove_venue st n).stopped = [n] ∧
       (QuoteGateway.remove_venue st n).state.subscriptions = st.subscriptions ∧
       (QuoteGateway.remove_venue st n).state.is_running = st.is_running ∧
       ∀ v ∈ st.venues, v.name ≠ n →
         v ∈ (QuoteGateway.remove_venue st n).state.venues)) := by
  constructor
  · intro h
    have hf : st.venues.filter (fun v => v.name ≠ n) = st.venues :=
      List.filter_eq_self.mpr (by intro a ha; simpa using h a ha)
    have hlen : (st.venues.filter (fun v => v.name ≠ n)).length = st.venues.length := by
      rw [hf]
    simp only [QuoteGateway.remove_venue, if_pos hlen]
  · intro hex
    have hne : ¬ (st.venues.filter (fun v => v.name ≠ n)).length = st.venues.length := by
      intro hl
      have hall := length_filter_eq_all _ _ hl
      rcases hex with ⟨v, hv, hvn⟩
      have := hall v hv
      simp [hvn] at this
    have hnil : st.venues.filter (fun v => v.name = n) ≠ [] := by
      rcases hex with ⟨v, hv, hvn⟩
      exact List.ne_nil_of_mem (List.mem_filter.mpr ⟨hv, by simp [hvn]⟩)
    obtain ⟨w, hw⟩ : ∃ w, (st.venues.filter (fun v => v.name = n)).getLast? = some w := by
      cases hgl : (st.venues.filter (fun v => v.name = n)).getLast? with
      | none => exact absurd (List.getLast?_eq_none_iff.mp hgl) hnil
      | some w => exact ⟨w, rfl⟩
    have hwn : w.name = n := by
      have hmem := getLast?_mem_of_eq hw
      have := (List.mem_filter.mp hmem).2
      simpa using this
    have hcond : ¬ ∀ a ∈ st.venues, ¬ a.name = n := by
      rcases hex with ⟨v, hv, hvn⟩
      intro hall
      exact hall v hv hvn
    refine ⟨?_, ?_, ?_, ?_, ?_⟩ <;>
      simp [QuoteGateway.remove_venue, hne, hcond, hw, hwn] <;>
      intro v hv hvn <;>
      exact ⟨hv, hvn⟩

/-- Witness for claim C7: removing an unknown venue fails and leaves the
registry intact; removing MOCK1 keeps MOCK2 and stops MOCK1. -/
theorem c7_witness :
    QuoteGateway.remove_venue (testGateway [okVenue "MOCK1"]) "NONE" =
      { result := .error (.gateway (.VenueNotFound "NONE")),
        state := testGateway [okVenue "MOCK1"], stopped := [], channelClosed := false } ∧
    (QuoteGateway.remove_venue (testGateway [okVenue "MOCK1", okVenue "MOCK2"])
        "MOCK1").state.venues =
      (testGateway [okVenue "MOCK1", okVenue "MOCK2"]).venues.filter
        (fun v => v.name ≠ "MOCK1") ∧
    (QuoteGateway.remove_venue (testGateway [okVenue "MOCK1", okVenue "MOCK2"])
        "MOCK1").stopped = ["MOCK1"] :=
  ⟨(c7_remove_venue (testGateway [okVenue "MOCK1"]) "NONE").1
     (by intro v hv; simp [testGateway] at hv; simp [hv, okVenue]),
   ((c7_remove_venue (testGateway [okVenue "MOCK1", okVenue "MOCK2"]) "MOCK1").2
     ⟨okVenue "MOCK1", by simp [testGateway], rfl⟩).1,
   ((c7_remove_venue (testGateway [okVenue "MOCK1", okVenue "MOCK2"]) "MOCK1").2
     ⟨okVenue "MOCK1", by simp [testGateway], rfl⟩).2.1⟩

/-- Claim C9: unsubscribe_all always succeeds, clears the running flag and the
subscription table, and touches nothing else: the venue registry is preserved,
no stop() is invoked, and the outbound channel is not closed. -/
theorem c9_unsubscribe_all_frame (st : GatewayState) :
    (QuoteGateway.unsubscribe_all st).result = .ok () ∧
    (QuoteGateway.unsubscribe_all st).state.is_running = false ∧
    (QuoteGateway.unsubscribe_all st).state.subscriptions = [] ∧
    (QuoteGateway.unsubscribe_all st).state.venues = st.venues ∧
    (QuoteGateway.unsubscribe_all st).stopped = [] ∧
    (QuoteGateway.unsubscribe_all st).channelClosed = false := by
  simp [QuoteGateway.unsubscribe_all]

set_option maxRecDepth 4000 in
/-- Claim C4 (code bug): str::parse::<f64> accepts "nan" and yields NaN, and
every IEEE comparison on NaN is false, so a ticker whose bid price field is
"nan" passes the bid <= 0.0 drop check and is forwarded downstream as a Quote
whose bid is NaN — a value that is not strictly positive — contradicting the
claim's forward-iff-all-positive policy and the no-garbage guarantee. -/
theorem c4_nan_forwarded :
    processTicker nanParse 7 c4NanTicker =
      some { symbol := "BTCUSDT", bid := F64.nan, ask := F64.finite (3 / 2),
             bid_size := F64.finite (3 / 2), ask_size := F64.finite (3 / 2),
             venue := "BINANCE_FUTURES", timestamp := 7 } ∧
    F64.gtZero F64.nan = false := by
  constructor
  · have hnan : nanParse "nan" = some F64.nan := by simp [nanParse]
    have h15 : nanParse "1.5" = some (F64.finite (3 / 2)) := by simp [nanParse]
    have hle : F64.leZero (F64.finite (3 / 2)) = false := by
      simp [F64.leZero]
    simp [processTicker, c4NanTicker, hnan, h15, hle, F64.leZero]
  · rfl

theorem retryAux_attempts_le (connect : ℕ → Option String) (max_attempts : ℕ) :
    ∀ d attempts, attempts < max_attempts → max_attempts - attempts = d →
      (retryAux connect max_attempts attempts).attempts ≤ max_attempts := by
  intro d
  induction d with
  | zero => intro att h hd; omega
  | succ d ih =>
    intro att h hd
    unfold retryAux
    cases connect (att + 1) with
    | none => simpa [RetryResult.attempts] using h
    | some e =>
      by_cases hc : max_attempts ≤ att + 1
      · simp only [hc, dite_true]
        simpa [RetryResult.attempts] using h
      · simp only [hc, dite_false]
        have hlt : att + 1 < max_attempts := by omega
        have hrec := ih (att + 1) hlt (by omega)
        cases hr : retryAux connect max_attempts (att + 1) with
        | connected a ds =>
          rw [hr] at hrec
          simpa [RetryResult.attempts] using hrec
        | failed a m ds =>
          rw [hr] at hrec
          simpa [RetryResult.attempts] using hrec

theorem retryAux_all_fail (connect : ℕ → Option String) (max_attempts : ℕ) :
    ∀ d attempts, attempts < max_attempts → max_attempts - attempts = d →
      (∀ i, attempts < i → i ≤ max_attempts → ∃ e, connect i = some e) →
      ∃ e, connect max_attempts = some e ∧
        retryAux connect max_attempts attempts =
          .failed max_attempts
            ("Failed after " ++ toString max_attempts ++ " attempts: " ++ e)
            (List.replicate (max_attempts - attempts - 1) RECONNECT_DELAY_MS) := by
  intro d
  induction d with
  | zero => intro att h hd _; omega
  | succ d ih =>
    intro att h hd hall
    rcases hall (att + 1) (Nat.lt_succ_self att) h with ⟨e, he⟩
    unfold retryAux
    rw [he]
    by_cases hc : max_attempts ≤ att + 1
    · have hmax : att + 1 = max_attempts := by omega
      refine ⟨e, by rw [← hmax]; exact he, ?_⟩
      simp only [hc, dite_true]
      rw [hmax]
      have : max_attempts - att - 1 = 0 := by omega
      rw [this, List.replicate_zero]
    · have hlt : att + 1 < max_attempts := by omega
      rcases ih (att + 1) hlt (by omega)
          (fun i hi₁ hi₂ => hall i (by omega) hi₂) with ⟨e₁, he₁, hr⟩
      refine ⟨e₁, he₁, ?_⟩
      simp only [hc, dite_false]
      rw [hr]
      have : max_attempts - att - 1 = (max_attempts - (att + 1) - 1) + 1 := by omega
      rw [this, List.replicate_succ]

/-- Claim C8: the retry loop run with the default bound makes at most
MAX_RECONNECT_ATTEMPTS = 5 connection attempts, sleeping RECONNECT_DELAY_MS
between consecutive attempts; when every attempt fails it stops after exactly
5 attempts and returns the ConnectionFailed message carrying the attempt count
and the last error. -/
theorem c8_retry_bound (connect : ℕ → Option String) :
    (ws_connect_with_retry connect MAX_RECONNECT_ATTEMPTS).attempts ≤ 5 ∧
    ((∀ i, 1 ≤ i → i ≤ 5 → ∃ e, connect i = some e) →
      ∃ e, connect 5 = some e ∧
        ws_connect_with_retry connect MAX_RECONNECT_ATTEMPTS =
          .failed 5 ("Failed after 5 attempts: " ++ e)
            (List.replicate 4 RECONNECT_DELAY_MS)) := by
  constructor
  · exact retryAux_attempts_le connect MAX_RECONNECT_ATTEMPTS 5 0 (by norm_num [MAX_RECONNECT_ATTEMPTS]) rfl
  · intro hall
    rcases retryAux_all_fail connect MAX_RECONNECT_ATTEMPTS 5 0
        (by norm_num [MAX_RECONNECT_ATTEMPTS]) rfl
        (fun i hi₁ hi₂ => hall i (by omega) hi₂) with ⟨e, he, hr⟩
    exact ⟨e, he, hr⟩

/-- Witness for claim C8: a connection that fails on every attempt exhausts the
bound after exactly 5 attempts with 4 sleeps. -/
theorem c8_witness :
    ∃ e, alwaysFailConnect 5 = some e ∧
      ws_connect_with_retry alwaysFailConnect MAX_RECONNECT_ATTEMPTS =
        .failed 5 ("Failed after 5 attempts: " ++ e)
          (List.replicate 4 RECONNECT_DELAY_MS) :=
  (c8_retry_bound alwaysFailConnect).2 (fun i _ _ => ⟨"err" ++ toString i, rfl⟩)

theorem ratMul_eq (a b : ℚ) : ratMul a b = a * b := by
  rw [ratMul, Rat.divInt_eq_div]
  push_cast
  rw [← div_mul_div_comm, Rat.num_div_den, Rat.num_div_den]

theorem ratDiv_eq (a b : ℚ) : ratDiv a b = a / b := by
  by_cases hb : b = 0
  · subst hb
    simp [ratDiv]
  · have h1 : (a.den : ℚ) ≠ 0 := by
      exact_mod_cast a.den_nz
    have h3 : (b.den : ℚ) ≠ 0 := by
      exact_mod_cast b.den_nz
    have hbn : (b.num : ℚ) ≠ 0 := by
      exact_mod_cast Rat.num_ne_zero.mpr hb
    have ha : (a.num : ℚ) = a * a.den := (div_eq_iff h1).mp (Rat.num_div_den a)
    have hb2 : (b.num : ℚ) = b * b.den := (div_eq_iff h3).mp (Rat.num_div_den b)
    rw [ratDiv, Rat.divInt_eq_div]
    push_cast
    rw [ha, hb2]
    rw [div_eq_div_iff (mul_ne_zero h1 (mul_ne_zero hb h3)) hb]
    ring

theorem ratTrunc_eq_floor (q : ℚ) (h : 0 ≤ q) : ratTrunc q = ⌊q⌋ := by
  rw [ratTrunc, Rat.floor_def]
  exact Int.tdiv_eq_ediv (Rat.num_nonneg.mpr h) (Int.ofNat_nonneg q.den)

set_option maxRecDepth 16000 in
/-- Counterexample to claim C3: the 8-decimal price 0.00000003 (as the f64
nearest to 3e-8) scales to the key 2, not 3 — the f64 product rounds just
below 3 and the i64 cast truncates — so descaling returns the f64 of
0.00000002, not the original price. -/
theorem c3_roundtrip_counterexample :
    descalePrice64 (scalePrice64 (priceDouble 3)) ≠ priceDouble 3 ∧
    scalePrice64 (priceDouble 3) = 2 ∧
    descalePrice64 (scalePrice64 (priceDouble 3)) = priceDouble 2 := by
  refine ⟨?_, ?_, ?_⟩ <;> decide

theorem log2fuel_bounds :
    ∀ fuel n, 1 ≤ n → n ≤ fuel →
      2 ^ log2fuel fuel n ≤ n ∧ n < 2 ^ (log2fuel fuel n + 1) := by
  intro fuel
  induction fuel with
  | zero => intro n h1 h2; omega
  | succ fuel ih =>
    intro n h1 h2
    by_cases hn : n ≤ 1
    · have hone : n = 1 := by omega
      subst hone
      simp [log2fuel]
    · simp only [log2fuel, hn, if_false]
      have h1' : 1 ≤ n / 2 := by omega
      have h2' : n / 2 ≤ fuel := by omega
      obtain ⟨ha, hb⟩ := ih (n / 2) h1' h2'
      have e1 : 2 ^ (log2fuel fuel (n / 2) + 1) = 2 * 2 ^ log2fuel fuel (n / 2) := by
        rw [pow_succ]; ring
      have e2 : 2 ^ (log2fuel fuel (n / 2) + 1 + 1) = 2 * 2 ^ (log2fuel fuel (n / 2) + 1) := by
        rw [pow_succ]; ring
      omega

theorem clog2fuel_bounds :
    ∀ fuel a b, 0 < a → b ≤ a * 2 ^ fuel →
      b ≤ a * 2 ^ clog2fuel fuel a b ∧
      ∀ m < clog2fuel fuel a b, ¬ b ≤ a * 2 ^ m := by
  intro fuel
  induction fuel with
  | zero =>
    intro a b ha hb
    simp only [clog2fuel]
    exact ⟨by simpa using hb, by omega⟩
  | succ fuel ih =>
    intro a b ha hb
    by_cases hba : b ≤ a
    · simp only [clog2fuel, hba, if_true]
      exact ⟨by simpa using hba, by omega⟩
    · simp only [clog2fuel, hba, if_false]
      have hb' : b ≤ 2 * a * 2 ^ fuel := by
        have : a * 2 ^ (fuel + 1) = 2 * a * 2 ^ fuel := by rw [pow_succ]; ring
        omega
      obtain ⟨h₁, h₂⟩ := ih (2 * a) b (by omega) hb'
      constructor
      · have : a * 2 ^ (clog2fuel fuel (2 * a) b + 1) = 2 * a * 2 ^ clog2fuel fuel (2 * a) b := by
          rw [pow_succ]; ring
        omega
      · intro m hm
        cases m with
        | zero => simpa using hba
        | succ j =>
          have hj : j < clog2fuel fuel (2 * a) b := by omega
          have : a * 2 ^ (j + 1) = 2 * a * 2 ^ j := by rw [pow_succ]; ring
          have := h₂ j hj
          omega

theorem natLog2_bounds (n : ℕ) (h : 1 ≤ n) :
    2 ^ natLog2 n ≤ n ∧ n < 2 ^ (natLog2 n + 1) :=
  log2fuel_bounds n n h le_rfl

theorem zpow_natCast_q (k : ℕ) : (2 : ℚ) ^ (k : ℤ) = ((2 ^ k : ℕ) : ℚ) := by
  rw [zpow_natCast]
  push_cast
  ring

theorem ratExp_bounds (q : ℚ) (hq : 0 < q) :
    (2 : ℚ) ^ ratExp q ≤ q ∧ q < (2 : ℚ) ^ (ratExp q + 1) := by
  have hden : 0 < q.den := q.pos
  have hnum : 0 < q.num := Rat.num_pos.mpr hq
  have hdenq : (0 : ℚ) < (q.den : ℚ) := by exact_mod_cast hden
  have hqeq : q = (q.num.toNat : ℚ) / (q.den : ℚ) := by
    rw [show ((q.num.toNat : ℚ)) = ((q.num : ℚ)) by
      exact_mod_cast congrArg Int.cast (Int.toNat_of_nonneg hnum.le)]
    exact (Rat.num_div_den q).symm
  set a := q.num.toNat with ha
  set b := q.den with hb
  have hapos : 0 < a := by
    simp only [ha]
    omega
  by_cases h1 : 1 ≤ q
  · have hba : b ≤ a := by
      have : (b : ℚ) ≤ (a : ℚ) := by
        have := (le_div_iff hdenq).mp (hqeq ▸ h1)
        linarith
      exact_mod_cast this
    have n0pos : 1 ≤ a / b := (Nat.one_le_div_iff hden).mpr hba
    obtain ⟨hl, hr⟩ := natLog2_bounds (a / b) n0pos
    simp only [ratExp, if_pos h1, ← ha, ← hb]
    constructor
    · rw [zpow_natCast_q]
      have step1 : ((2 ^ natLog2 (a / b) : ℕ) : ℚ) ≤ ((a / b : ℕ) : ℚ) := by
        exact_mod_cast hl
      have step2 : ((a / b : ℕ) : ℚ) ≤ (a : ℚ) / (b : ℚ) := Nat.cast_div_le
      rw [hqeq]
      linarith
    · have hlt : (a : ℚ) / (b : ℚ) < ((a / b : ℕ) : ℚ) + 1 := by
        rw [div_lt_iff hdenq]
        have hmod : a % b < b := Nat.mod_lt a hden
        have : a < (a / b + 1) * b := by
          calc a = b * (a / b) + a % b := (Nat.div_add_mod a b).symm
            _ < b * (a / b) + b := Nat.add_lt_add_left hmod _
            _ = (a / b + 1) * b := by ring
        exact_mod_cast this
      have hsucc : ((a / b : ℕ) : ℚ) + 1 ≤ ((2 ^ (natLog2 (a / b) + 1) : ℕ) : ℚ) := by
        exact_mod_cast hr
      rw [show (natLog2 (a / b) : ℤ) + 1 = ((natLog2 (a / b) + 1 : ℕ) : ℤ) by push_cast; ring,
        zpow_natCast_q]
      rw [hqeq]
      linarith
  · have hfuel : b ≤ a * 2 ^ b := by
      have h2b : b < 2 ^ b := Nat.lt_two_pow b
      have : 2 ^ b ≤ a * 2 ^ b := Nat.le_mul_of_pos_left _ hapos
      omega
    obtain ⟨hm1, hmin⟩ := clog2fuel_bounds b a b hapos hfuel
    set m := clog2fuel b a b with hmdef
    have hm0 : m ≠ 0 := by
      intro h0
      rw [h0] at hm1
      simp at hm1
      have : (1 : ℚ) ≤ q := by
        rw [hqeq, le_div_iff hdenq]
        have : (b : ℚ) ≤ (a : ℚ) := by exact_mod_cast hm1
        linarith
      exact h1 this
    simp only [ratExp, if_neg h1, ← ha, ← hb, ← hmdef]
    have hp1 : (0 : ℚ) < ((2 ^ m : ℕ) : ℚ) := by positivity
    have hp2 : (0 : ℚ) < ((2 ^ (m - 1) : ℕ) : ℚ) := by positivity
    constructor
    · rw [zpow_neg, zpow_natCast_q, hqeq]
      rw [inv_eq_one_div, div_le_div_iff hp1 hdenq]
      have : (b : ℚ) ≤ (a : ℚ) * ((2 ^ m : ℕ) : ℚ) := by exact_mod_cast hm1
      linarith
    · have hub : ¬ b ≤ a * 2 ^ (m - 1) := hmin (m - 1) (by omega)
      have hub' : a * 2 ^ (m - 1) < b := by omega
      have hexp : (-(m : ℤ) + 1) = -(((m - 1 : ℕ)) : ℤ) := by
        have : 1 ≤ m := by omega
        push_cast [Nat.cast_sub this]
        ring
      rw [hexp, zpow_neg, zpow_natCast_q, hqeq]
      rw [inv_eq_one_div, div_lt_div_iff hdenq hp2]
      have : (a : ℚ) * ((2 ^ (m - 1) : ℕ) : ℚ) < (b : ℚ) := by exact_mod_cast hub'
      linarith

theorem rnePair_err (num den : ℤ) (hnum : 0 ≤ num) (hden : 0 < den) :
    |((rnePair num den : ℤ) : ℚ) - (num : ℚ) / (den : ℚ)| ≤ 1 / 2 := by
  have hden0 : den ≠ 0 := ne_of_gt hden
  have hdq : (0 : ℚ) < (den : ℚ) := by exact_mod_cast hden
  have hsum : den * (num / den) + num % den = num := Int.ediv_add_emod num den
  have hr0 : 0 ≤ num % den := Int.emod_nonneg num hden0
  have hrden : num % den < den := Int.emod_lt_of_pos num hden
  have hkey : ∀ z : ℤ, ((z : ℚ)) - (num : ℚ) / (den : ℚ) =
      ((z - num / den : ℤ) : ℚ) - ((num % den : ℤ) : ℚ) / (den : ℚ) := by
    intro z
    have : (num : ℚ) = (den : ℚ) * ((num / den : ℤ) : ℚ) + ((num % den : ℤ) : ℚ) := by
      exact_mod_cast congrArg (fun x : ℤ => (x : ℚ)) hsum.symm
    rw [this]
    push_cast
    field_simp
    ring
  simp only [rnePair]
  split_ifs with h1 h2 h3
  · rw [hkey]
    simp only [sub_self, Int.cast_zero, zero_sub, abs_neg]
    rw [abs_div, abs_of_nonneg (by exact_mod_cast hr0 : (0:ℚ) ≤ ((num % den : ℤ) : ℚ)),
      abs_of_pos hdq, div_le_div_iff hdq (by norm_num : (0:ℚ) < 2)]
    have : 2 * (num % den) ≤ den := by omega
    have hc : ((num % den : ℤ) : ℚ) * 2 ≤ (den : ℚ) := by exact_mod_cast (by omega : (num % den) * 2 ≤ den)
    linarith
  · rw [hkey]
    have e1 : ((num / den + 1 - num / den : ℤ) : ℚ) = 1 := by push_cast; ring
    rw [show (num / den + 1 - num / den : ℤ) = 1 by ring]
    have habs : |1 - ((num % den : ℤ) : ℚ) / (den : ℚ)| = 1 - ((num % den : ℤ) : ℚ) / (den : ℚ) := by
      rw [abs_of_nonneg]
      rw [sub_nonneg, div_le_one hdq]
      exact_mod_cast hrden.le
    rw [show ((1 : ℤ) : ℚ) = 1 by norm_num, habs]
    rw [sub_le_iff_le_add]
    have hhalf : (1 : ℚ) / 2 ≤ ((num % den : ℤ) : ℚ) / (den : ℚ) := by
      rw [div_le_div_iff (by norm_num : (0:ℚ) < 2) hdq]
      exact_mod_cast (by omega : 1 * den ≤ (num % den) * 2)
    linarith
  · have htie : 2 * (num % den) = den := by omega
    rw [hkey]
    simp only [sub_self, Int.cast_zero, zero_sub, abs_neg]
    rw [abs_div, abs_of_nonneg (by exact_mod_cast hr0 : (0:ℚ) ≤ ((num % den : ℤ) : ℚ)),
      abs_of_pos hdq, div_le_div_iff hdq (by norm_num : (0:ℚ) < 2)]
    have hc : ((num % den : ℤ) : ℚ) * 2 = (den : ℚ) := by exact_mod_cast (by omega : (num % den) * 2 = den)
    linarith
  · have htie : 2 * (num % den) = den := by omega
    rw [hkey]
    rw [show (num / den + 1 - num / den : ℤ) = 1 by ring]
    rw [show ((1 : ℤ) : ℚ) = 1 by norm_num]
    have hhalf : ((num % den : ℤ) : ℚ) / (den : ℚ) = 1 / 2 := by
      rw [div_eq_div_iff (ne_of_gt hdq) (by norm_num : (2:ℚ) ≠ 0)]
      exact_mod_cast (by omega : (num % den) * 2 = 1 * den)
    rw [hhalf]
    rw [abs_of_nonneg (by norm_num : (0:ℚ) ≤ 1 - 1/2)]
    norm_num

theorem flPos_form (q : ℚ) (hq : 0 < q) :
    ∃ m : ℤ, flPos q = (m : ℚ) * (2 : ℚ) ^ (ratExp q - 52) ∧
      |(m : ℚ) - q * (2 : ℚ) ^ (52 - ratExp q)| ≤ 1 / 2 := by
  have hnum : 0 < q.num := Rat.num_pos.mpr hq
  have hden : 0 < q.den := q.pos
  have hq_eq : q = (q.num : ℚ) / (q.den : ℚ) := (Rat.num_div_den q).symm
  by_cases hce : ratExp q ≤ 52
  · set k := (52 - ratExp q).toNat with hk
    have hkz : (k : ℤ) = 52 - ratExp q := by omega
    have hzp : (2 : ℚ) ^ (ratExp q - 52) = ((2 : ℚ) ^ k)⁻¹ := by
      rw [← zpow_natCast (2 : ℚ) k, ← zpow_neg]
      congr 1
      omega
    have hzp2 : (2 : ℚ) ^ ((52 : ℤ) - ratExp q) = (2 : ℚ) ^ k := by
      rw [← zpow_natCast (2 : ℚ) k]
      congr 1
      omega
    refine ⟨rnePair (q.num * 2 ^ k) (q.den : ℤ), ?_, ?_⟩
    · simp only [flPos, ← hk, if_pos hce]
      rw [Rat.divInt_eq_div, hzp]
      push_cast
      rw [div_eq_mul_inv]
    · have herr := rnePair_err (q.num * 2 ^ k) (q.den : ℤ)
        (by positivity) (by exact_mod_cast hden)
      have hx : ((q.num * 2 ^ k : ℤ) : ℚ) / ((q.den : ℤ) : ℚ) =
          q * (2 : ℚ) ^ ((52 : ℤ) - ratExp q) := by
        rw [hzp2]
        conv_rhs => rw [hq_eq]
        push_cast
        rw [div_mul_eq_mul_div]
      rw [hx] at herr
      exact herr
  · set k := (ratExp q - 52).toNat with hk
    have hkz : (k : ℤ) = ratExp q - 52 := by omega
    have hzp : (2 : ℚ) ^ (ratExp q - 52) = (2 : ℚ) ^ k := by
      rw [← zpow_natCast (2 : ℚ) k]
      congr 1
      omega
    have hzp2 : (2 : ℚ) ^ ((52 : ℤ) - ratExp q) = ((2 : ℚ) ^ k)⁻¹ := by
      rw [← zpow_natCast (2 : ℚ) k, ← zpow_neg]
      congr 1
      omega
    refine ⟨rnePair q.num ((q.den : ℤ) * 2 ^ k), ?_, ?_⟩
    · simp only [flPos, ← hk, if_neg hce]
      rw [Rat.divInt_one, hzp]
      push_cast
      ring
    · have hden' : (0 : ℤ) < (q.den : ℤ) * 2 ^ k := by positivity
      have herr := rnePair_err q.num ((q.den : ℤ) * 2 ^ k) hnum.le hden'
      have hx : ((q.num : ℤ) : ℚ) / (((q.den : ℤ) * 2 ^ k : ℤ) : ℚ) =
          q * (2 : ℚ) ^ ((52 : ℤ) - ratExp q) := by
        rw [hzp2]
        conv_rhs => rw [hq_eq]
        push_cast
        rw [← div_eq_mul_inv, div_div]
      rw [hx] at herr
      exact herr

theorem flPos_spec (q : ℚ) (hq : 0 < q) :
    |flPos q - q| ≤ (2 : ℚ) ^ (ratExp q - 53) ∧ 0 < flPos q := by
  obtain ⟨m, hform, herr⟩ := flPos_form q hq
  obtain ⟨hlo, _⟩ := ratExp_bounds q hq
  have h2 : (2 : ℚ) ≠ 0 := by norm_num
  have hpp : ∀ z : ℤ, (0 : ℚ) < 2 ^ z := fun z => zpow_pos (by norm_num) z
  have hcancel : (2 : ℚ) ^ ((52 : ℤ) - ratExp q) * (2 : ℚ) ^ (ratExp q - 52) = 1 := by
    rw [← zpow_add₀ h2]
    norm_num
  have hdiff : flPos q - q =
      ((m : ℚ) - q * (2 : ℚ) ^ ((52 : ℤ) - ratExp q)) * (2 : ℚ) ^ (ratExp q - 52) := by
    have expand : ((m : ℚ) - q * (2 : ℚ) ^ ((52 : ℤ) - ratExp q)) * (2 : ℚ) ^ (ratExp q - 52) =
        (m : ℚ) * (2 : ℚ) ^ (ratExp q - 52) -
          q * ((2 : ℚ) ^ ((52 : ℤ) - ratExp q) * (2 : ℚ) ^ (ratExp q - 52)) := by
      ring
    rw [expand, hcancel, mul_one, hform]
  have hxge : (2 : ℚ) ^ (52 : ℤ) ≤ q * (2 : ℚ) ^ ((52 : ℤ) - ratExp q) := by
    have step := mul_le_mul_of_nonneg_right hlo (le_of_lt (hpp ((52 : ℤ) - ratExp q)))
    have h52 : (2 : ℚ) ^ ratExp q * (2 : ℚ) ^ ((52 : ℤ) - ratExp q) = (2 : ℚ) ^ (52 : ℤ) := by
      rw [← zpow_add₀ h2]
      congr 1
      ring
    rw [h52] at step
    exact step
  have h52ge1 : (1 : ℚ) ≤ (2 : ℚ) ^ (52 : ℤ) := by
    rw [show (52 : ℤ) = ((52 : ℕ) : ℤ) by norm_num, zpow_natCast]
    norm_num
  have hm_pos : (0 : ℚ) < (m : ℚ) := by
    have := (abs_le.mp herr).1
    linarith
  constructor
  · rw [hdiff, abs_mul, abs_of_pos (hpp _)]
    have hstep : |(m : ℚ) - q * (2 : ℚ) ^ ((52 : ℤ) - ratExp q)| * (2 : ℚ) ^ (ratExp q - 52) ≤
        (1 / 2) * (2 : ℚ) ^ (ratExp q - 52) :=
      mul_le_mul_of_nonneg_right herr (le_of_lt (hpp _))
    have hhalfpow : (1 / 2 : ℚ) * (2 : ℚ) ^ (ratExp q - 52) = (2 : ℚ) ^ (ratExp q - 53) := by
      rw [show (1 / 2 : ℚ) = (2 : ℚ) ^ (-1 : ℤ) by rw [zpow_neg, zpow_one]; norm_num]
      rw [← zpow_add₀ h2]
      congr 1
      ring
    linarith
  · rw [hform]
    exact mul_pos hm_pos (hpp _)

theorem fl64_err (q : ℚ) (hq : 0 < q) :
    |fl64 q - q| ≤ q / 2 ^ 53 ∧ 0 < fl64 q := by
  have hne : q ≠ 0 := ne_of_gt hq
  obtain ⟨herr, hpos⟩ := flPos_spec q hq
  obtain ⟨hlo, _⟩ := ratExp_bounds q hq
  have h2 : (2 : ℚ) ≠ 0 := by norm_num
  have hpp : ∀ z : ℤ, (0 : ℚ) < 2 ^ z := fun z => zpow_pos (by norm_num) z
  have hfl : fl64 q = flPos q := by
    simp [fl64, hne, hq]
  have hbound : (2 : ℚ) ^ (ratExp q - 53) ≤ q / 2 ^ 53 := by
    have hsplit : (2 : ℚ) ^ (ratExp q - 53) = (2 : ℚ) ^ ratExp q * (2 : ℚ) ^ (-53 : ℤ) := by
      rw [← zpow_add₀ h2]
      congr 1
    have hstep := mul_le_mul_of_nonneg_right hlo (le_of_lt (hpp (-53 : ℤ)))
    have hdiv : q * (2 : ℚ) ^ (-53 : ℤ) = q / 2 ^ 53 := by
      rw [zpow_neg, div_eq_mul_inv]
      congr 1
      rw [← zpow_natCast (2 : ℚ) 53]
      norm_num
    rw [hsplit]
    rw [hdiv] at hstep
    exact hstep
  rw [hfl]
  exact ⟨le_trans herr hbound, hpos⟩

/-- Claim C3 (amended): for a decimal price with up to 8 fractional digits,
p = n / 10^8 with 0 < n ≤ 10^15 taken as its f64 value, the scaled key is
either n or n - 1 (scaling may lose one unit in the 8th decimal because the
f64 product can round just below n before the truncating cast), and whenever
scaling is lossless (key = n) descaling returns the price's f64 exactly. -/
theorem c3_price_scale_amended (n : ℕ) (h1 : 0 < n) (h2 : n ≤ 10 ^ 15) :
    ((n : ℤ) - 1 ≤ scalePrice64 (priceDouble n) ∧ scalePrice64 (priceDouble n) ≤ (n : ℤ)) ∧
    (scalePrice64 (priceDouble n) = (n : ℤ) →
      descalePrice64 (scalePrice64 (priceDouble n)) = priceDouble n) := by
  have hnq : (0 : ℚ) < (n : ℚ) := by exact_mod_cast h1
  have hnb : (n : ℚ) ≤ 10 ^ 15 := by exact_mod_cast h2
  have hM : (0 : ℚ) < 100000000 := by norm_num
  have h53 : (0 : ℚ) < 2 ^ 53 := by positivity
  have hpd : priceDouble n = fl64 ((n : ℚ) / 100000000) := by
    rw [priceDouble, descalePrice64, ratDiv_eq]
    push_cast
    rfl
  have hq0pos : (0 : ℚ) < (n : ℚ) / 100000000 := by positivity
  obtain ⟨herr1, hpd_pos⟩ := fl64_err ((n : ℚ) / 100000000) hq0pos
  have hxpos : (0 : ℚ) < fl64 ((n : ℚ) / 100000000) * 100000000 :=
    mul_pos hpd_pos hM
  obtain ⟨herr2, hy_pos⟩ := fl64_err (fl64 ((n : ℚ) / 100000000) * 100000000) hxpos
  have hsc : scalePrice64 (priceDouble n) =
      ratTrunc (fl64 (fl64 ((n : ℚ) / 100000000) * 100000000)) := by
    rw [hpd, scalePrice64, ratMul_eq]
  set pd := fl64 ((n : ℚ) / 100000000) with hpdd
  set x := pd * 100000000 with hxd
  set y := fl64 x with hyd
  have hq0n : ((n : ℚ) / 100000000) * 100000000 = (n : ℚ) := by field_simp
  have hxn : |x - (n : ℚ)| ≤ (n : ℚ) / 2 ^ 53 := by
    have hrw : x - (n : ℚ) = (pd - (n : ℚ) / 100000000) * 100000000 := by
      rw [hxd, ← hq0n]
      ring
    rw [hrw, abs_mul, abs_of_pos hM]
    calc |pd - (n : ℚ) / 100000000| * 100000000
        ≤ ((n : ℚ) / 100000000 / 2 ^ 53) * 100000000 :=
          mul_le_mul_of_nonneg_right herr1 (le_of_lt hM)
      _ = (n : ℚ) / 2 ^ 53 := by
          field_simp
          ring
  have hxub : x ≤ (n : ℚ) + (n : ℚ) / 2 ^ 53 := by
    have := (abs_le.mp hxn).2
    linarith
  have hxlb : (n : ℚ) - (n : ℚ) / 2 ^ 53 ≤ x := by
    have := (abs_le.mp hxn).1
    linarith
  have hyn : |y - (n : ℚ)| < 1 := by
    have t1 := (abs_le.mp herr2).1
    have t2 := (abs_le.mp herr2).2
    have hxd53 : x / 2 ^ 53 ≤ ((n : ℚ) + (n : ℚ) / 2 ^ 53) / 2 ^ 53 := by gcongr
    have hB : (n : ℚ) / 2 ^ 53 + ((n : ℚ) + (n : ℚ) / 2 ^ 53) / 2 ^ 53 < 1 := by
      have hmono : (n : ℚ) / 2 ^ 53 + ((n : ℚ) + (n : ℚ) / 2 ^ 53) / 2 ^ 53 ≤
          (10 ^ 15 : ℚ) / 2 ^ 53 + ((10 ^ 15 : ℚ) + (10 ^ 15 : ℚ) / 2 ^ 53) / 2 ^ 53 := by
        gcongr
      have hconc : (10 ^ 15 : ℚ) / 2 ^ 53 + ((10 ^ 15 : ℚ) + (10 ^ 15 : ℚ) / 2 ^ 53) / 2 ^ 53 < 1 := by
        norm_num
      linarith
    rw [abs_lt]
    constructor
    · linarith
    · linarith
  have htr : ratTrunc y = ⌊y⌋ := ratTrunc_eq_floor y hy_pos.le
  have hflo : (n : ℤ) - 1 ≤ ⌊y⌋ := by
    apply Int.le_floor.mpr
    have := (abs_lt.mp hyn).1
    push_cast
    linarith
  have hfhi : ⌊y⌋ ≤ (n : ℤ) := by
    have hlt : ⌊y⌋ < (n : ℤ) + 1 := by
      apply Int.floor_lt.mpr
      have := (abs_lt.mp hyn).2
      push_cast
      linarith
    omega
  refine ⟨⟨?_, ?_⟩, ?_⟩
  · rw [hsc, htr]
    exact hflo
  · rw [hsc, htr]
    exact hfhi
  · intro h
    rw [h]
    rfl

set_option maxRecDepth 16000 in
/-- Witness for the amended claim C3 at n = 1 (price 0.00000001, the smallest
tick, which the repo's own test exercises): the scaled key is exactly 1 and the
round-trip is lossless. -/
theorem c3_witness :
    (0 < 1 ∧ 1 ≤ 10 ^ 15) ∧
    (((1 : ℕ) : ℤ) - 1 ≤ scalePrice64 (priceDouble 1) ∧
      scalePrice64 (priceDouble 1) ≤ ((1 : ℕ) : ℤ)) ∧
    descalePrice64 (scalePrice64 (priceDouble 1)) = priceDouble 1 :=
  ⟨⟨by norm_num, by norm_num⟩,
   (c3_price_scale_amended 1 (by norm_num) (by norm_num)).1,
   (c3_price_scale_amended 1 (by norm_num) (by norm_num)).2 (by decide)⟩
